import Mathlib

/-!
Verification of the repo-to-skill converter pipeline.

Python strings are embedded as `List Char` (named `Str`); each Python
function under scrutiny is translated into an executable Lean definition
that mirrors its control flow, and the specification claims are settled
as theorems about those definitions.
-/

set_option maxHeartbeats 1000000
set_option maxRecDepth 100000

/-- Python `str` values are modelled as lists of characters. -/
abbrev Str := List Char

/-- Convert a Lean string literal into the `Str` model. -/
def str (x : String) : Str := x.toList

/-- Characters treated as whitespace by Python `str.strip()` (ASCII range). -/
def isWsPy (c : Char) : Bool :=
  c = ' ' || c = '\t' || c = '\n' || c = '\r' || c = '\x0b' || c = '\x0c'

/-- Remove leading whitespace, as Python `str.lstrip()`. -/
def trimLeft (l : Str) : Str := l.dropWhile isWsPy

/-- Remove trailing whitespace, as Python `str.rstrip()`. -/
def trimRight (l : Str) : Str := ((l.reverse).dropWhile isWsPy).reverse

/-- Python `str.strip()`: drop whitespace from both ends. -/
def pyStrip (l : Str) : Str := trimRight (trimLeft l)

/-- Index of the first occurrence of `pat` in `l`, as Python `str.find`
(returning `none` instead of `-1` when absent). -/
def firstIdx? : Str → Str → Option Nat
  | l, pat =>
    if pat.isPrefixOf l then some 0
    else
      match l with
      | [] => none
      | _ :: t => (firstIdx? t pat).map (· + 1)

/-- Index of the last occurrence of `pat` in `l`, as Python `str.rfind`
(returning `none` instead of `-1` when absent). -/
def lastIdx? : Str → Str → Option Nat
  | l, pat =>
    match l with
    | [] => if pat.isPrefixOf ([] : Str) then some 0 else none
    | _ :: t =>
      match lastIdx? t pat with
      | some i => some (i + 1)
      | none => if pat.isPrefixOf l then some 0 else none

/-- Python substring containment `pat in l`. -/
def containsSub (l pat : Str) : Bool := (firstIdx? l pat).isSome

/-- Python slice `l[a:b]` for natural indices. -/
def pySlice (a b : Nat) (l : Str) : Str := (l.take b).drop a

/-- Python `str.lower()` (ASCII behaviour). -/
def pyLower (l : Str) : Str := l.map Char.toLower

/-- Worker for `removeAllOcc`: walk the string; `k` counts characters still
to be dropped because they belong to a matched occurrence of `pat`. -/
def rmOccAux (pat : Str) : Str → Nat → Str
  | [], _ => []
  | c :: t, 0 =>
    if pat.isPrefixOf (c :: t) then rmOccAux pat t (pat.length - 1)
    else c :: rmOccAux pat t 0
  | _ :: t, k + 1 => rmOccAux pat t k

/-- Python `str.replace(pat, '')` with a nonempty pattern: remove every
(left-to-right, non-overlapping) occurrence of `pat`. -/
def removeAllOcc (pat : Str) (l : Str) : Str :=
  if pat.isEmpty then l else rmOccAux pat l 0

/-- Strip every occurrence of the character `c` from both ends of `l`,
as Python `str.strip('/')` for a single-character argument. -/
def stripChar (c : Char) (l : Str) : Str :=
  ((l.dropWhile (· = c)).reverse.dropWhile (· = c)).reverse

/-- Scheme characters accepted by Python `urllib.parse` after the first
letter: ASCII letters, digits, `+`, `-` and `.`. -/
def isSchemeChar (c : Char) : Bool :=
  c.isAlpha || c.isDigit || c = '+' || c = '-' || c = '.'

/-- The result of `urllib.parse.urlparse`, restricted to the components the
analyzer reads. -/
structure UrlParts where
  scheme : Str
  netloc : Str
  path : Str
deriving DecidableEq, Repr

/-- Characters removed from a URL by `urllib.parse` before splitting
(`_UNSAFE_URL_BYTES_TO_REMOVE`). -/
def isUnsafeUrlChar (c : Char) : Bool := c = '\t' || c = '\r' || c = '\n'

/-- Shallow model of `urllib.parse.urlparse`, producing the scheme
(lower-cased), network location and path. Mirrors `urlsplit`: the scheme is
recognised only when the text before the first `:` starts with a letter and
consists of scheme characters; the netloc follows a literal `//` and runs to
the first `/`, `?` or `#`; the path stops at the first `?` or `#`. -/
def urlparse (url0 : Str) : UrlParts :=
  let url := url0.filter (fun c => !isUnsafeUrlChar c)
  let (scheme, rest) :=
    match firstIdx? url [':'] with
    | some i =>
      if 0 < i ∧ (url.take i).all isSchemeChar ∧ (url.head?.map Char.isAlpha).getD false then
        (pyLower (url.take i), url.drop (i + 1))
      else ([], url)
    | none => ([], url)
  if (str "//").isPrefixOf rest then
    let after := rest.drop 2
    let netloc := after.takeWhile (fun c => !(c = '/' || c = '?' || c = '#'))
    let rest2 := after.dropWhile (fun c => !(c = '/' || c = '?' || c = '#'))
    { scheme := scheme, netloc := netloc,
      path := rest2.takeWhile (fun c => !(c = '?' || c = '#')) }
  else
    { scheme := scheme, netloc := [],
      path := rest.takeWhile (fun c => !(c = '?' || c = '#')) }

/-- Split the URL path on `/` after stripping leading and trailing slashes,
as `parsed.path.strip('/').split('/')`. -/
def pathParts (url : Str) : List Str :=
  (stripChar '/' (urlparse url).path).splitOn '/'

/-- Character class of `^[a-zA-Z0-9_-]+$` (repository owner names). -/
def isOwnerChar (c : Char) : Bool :=
  ('a' ≤ c && c ≤ 'z') || ('A' ≤ c && c ≤ 'Z') || ('0' ≤ c && c ≤ '9') || c = '_' || c = '-'

/-- Character class of `^[a-zA-Z0-9_.-]+$` (repository names). -/
def isRepoChar (c : Char) : Bool := isOwnerChar c || c = '.'

/-- Full match against `^[a-zA-Z0-9_-]+$`. -/
def ownerOk (o : Str) : Bool := !o.isEmpty && o.all isOwnerChar

/-- Full match against `^[a-zA-Z0-9_.-]+$`. -/
def repoOk (r : Str) : Bool := !r.isEmpty && r.all isRepoChar

/-- `repo.replace('.git', '')`: every occurrence of `.git` removed. -/
def stripGitAllOcc (r : Str) : Str := removeAllOcc (str ".git") r

/-- Suffix-only `.git` stripping, as the specification words it (`.git`
suffix stripped); used to compare the spec reading with the code. -/
def stripGitSuffixOnly (r : Str) : Str :=
  if (str ".git").isSuffixOf r then r.take (r.length - 4) else r

/-- Shallow embedding of `RepoAnalyzer.validate_github_url`. Returns the
`(is_valid, error_message)` pair produced by the Python function. -/
def validateGithubUrl (url : Str) : Bool × Str :=
  if url.isEmpty then (false, str "URL cannot be empty")
  else if 500 < url.length then (false, str "URL is too long")
  else
    let parsed := urlparse url
    if parsed.scheme ≠ str "https" then (false, str "URL must use HTTPS protocol")
    else if parsed.netloc ≠ str "github.com" ∧ parsed.netloc ≠ str "www.github.com" then
      (false, str "URL must be a GitHub repository")
    else
      let parts := pathParts url
      if parts.length < 2 then (false, str "Invalid GitHub repository URL format")
      else
        let owner := parts.getD 0 []
        let repo := stripGitAllOcc (parts.getD 1 [])
        if !ownerOk owner then (false, str "Invalid repository owner name")
        else if !repoOk repo then (false, str "Invalid repository name")
        else (true, str "")

/-- The `{'owner', 'repo', 'full_name'}` record built by
`RepoAnalyzer.extract_repo_info`. -/
structure RepoInfo where
  owner : Str
  repo : Str
  full_name : Str
deriving DecidableEq, Repr

/-- Shallow embedding of `RepoAnalyzer.extract_repo_info`. -/
def extractRepoInfo (url : Str) : RepoInfo :=
  let parts := pathParts url
  let repoName := stripGitAllOcc (parts.getD 1 [])
  { owner := parts.getD 0 []
    repo := repoName
    full_name := parts.getD 0 [] ++ '/' :: repoName }

/-- `re.sub(r'[^a-zA-Z0-9_-]', '_', full_name)`: replace every character
outside the allowed class with an underscore. -/
def safeNameOf (fullName : Str) : Str :=
  fullName.map (fun c => if isOwnerChar c then c else '_')

/-- Filesystem paths are modelled as lists of segments (relative to `/`). -/
abbrev PathSegs := List Str

/-- `Path.resolve()` modelled as lexical normalization: drop empty and `.`
segments, let `..` pop the previous segment. -/
def normalizeSegs (p : PathSegs) : PathSegs :=
  p.foldl
    (fun acc seg =>
      if seg = [] ∨ seg = str "." then acc
      else if seg = str ".." then acc.dropLast
      else acc ++ [seg])
    []

/-- Join path segments with `/` separators (no leading slash). -/
def joinSegs : PathSegs → Str
  | [] => []
  | [x] => x
  | x :: xs => x ++ '/' :: joinSegs xs

/-- `str(path)` for an absolute path. -/
def renderAbsPath (p : PathSegs) : Str := '/' :: joinSegs p

/-- The resolved clone target `(TEMP_DIR / safe_name).resolve()` derived by
`RepoAnalyzer.clone_repository`. -/
def clonePathFor (tempDir : PathSegs) (fullName : Str) : PathSegs :=
  normalizeSegs (tempDir ++ [safeNameOf fullName])

/-- The security gate of `clone_repository`:
`str(clone_path).startswith(str(TEMP_DIR.resolve()))`. -/
def cloneTraversalCheck (tempDir : PathSegs) (fullName : Str) : Bool :=
  (renderAbsPath (normalizeSegs tempDir)).isPrefixOf
    (renderAbsPath (clonePathFor tempDir fullName))

/-- A file of a cloned repository: path segments relative to the clone root,
byte size, and text content. -/
structure SrcFile where
  path : PathSegs
  size : Nat
  content : Str
deriving DecidableEq, Repr

/-- One entry of the `code_samples` list built by
`RepoAnalyzer._extract_code_samples`. -/
structure CodeSample where
  file : Str
  language : Str
  content : Str
deriving DecidableEq, Repr

/-- The extension list of `_extract_code_samples`. -/
def codeExts : List Str :=
  [str ".py", str ".js", str ".java", str ".go", str ".rs", str ".ts", str ".tsx"]

/-- Last path segment (the file name). -/
def fileNameOf (f : SrcFile) : Str := f.path.getLastD []

/-- Whether `rglob(f"*{ext}")` matches the file: its name ends with `ext`. -/
def extMatches (ext : Str) (f : SrcFile) : Bool := ext.isSuffixOf (fileNameOf f)

/-- `str(file_path)` for a sample candidate: the absolute path of the file,
`pre` being the resolved clone directory's segments. -/
def fullPathStr (pre : PathSegs) (f : SrcFile) : Str := renderAbsPath (pre ++ f.path)

/-- `part.startswith('.')` for one path segment. -/
def isHiddenSeg (seg : Str) : Bool :=
  match seg with
  | [] => false
  | c :: _ => c = '.'

/-- The three `continue` filters of `_extract_code_samples`: a path whose
string form contains `test` case-insensitively, a hidden path segment, or a
zero-byte or >100 KB file. -/
def skipSample (pre : PathSegs) (f : SrcFile) : Bool :=
  containsSub (pyLower (fullPathStr pre f)) (str "test")
    || (pre ++ f.path).any isHiddenSeg
    || 102400 < f.size
    || f.size = 0

/-- Build one sample entry: relative path, extension tag without the dot, and
the content clipped by the 5000-char read window and the 2000-char cap. -/
def mkSample (ext : Str) (f : SrcFile) : CodeSample :=
  { file := joinSegs f.path
    language := ext.drop 1
    content := (f.content.take 5000).take 2000 }

/-- Inner loop of `_extract_code_samples` over one extension's candidate
files, breaking once five samples are collected. -/
def sampleLoop (pre : PathSegs) (ext : Str) : List SrcFile → List CodeSample → List CodeSample
  | [], acc => acc
  | f :: rest, acc =>
    if skipSample pre f then sampleLoop pre ext rest acc
    else
      let acc' := acc ++ [mkSample ext f]
      if 5 ≤ acc'.length then acc' else sampleLoop pre ext rest acc'

/-- Outer loop of `_extract_code_samples` over the extension list; each
extension contributes at most the first ten matching files
(`[:max_samples * 2]`), and the loop stops once five samples exist. -/
def extLoop (pre : PathSegs) (tree : List SrcFile) : List Str → List CodeSample → List CodeSample
  | [], acc => acc
  | ext :: rest, acc =>
    let acc' := sampleLoop pre ext ((tree.filter (extMatches ext)).take 10) acc
    if 5 ≤ acc'.length then acc' else extLoop pre tree rest acc'

/-- Shallow embedding of `RepoAnalyzer._extract_code_samples` over a
repository tree given as a list of files in traversal order. -/
def extractCodeSamples (pre : PathSegs) (tree : List SrcFile) : List CodeSample :=
  extLoop pre tree codeExts []

/-- README file names probed by `_extract_readme`, in order. -/
def readmeNames : List Str :=
  [str "README.md", str "README.rst", str "README.txt", str "README"]

/-- Worker for `extractReadme`: first existing README variant whose size is
within the 1 MB cap; an oversized variant falls through to the next. -/
def extractReadmeGo (tree : List SrcFile) : List Str → Str
  | [] => []
  | p :: rest =>
    match tree.find? (fun f => f.path == [p]) with
    | some f => if 1048576 < f.size then extractReadmeGo tree rest else f.content
    | none => extractReadmeGo tree rest

/-- Shallow embedding of `RepoAnalyzer._extract_readme`. -/
def extractReadme (tree : List SrcFile) : Str := extractReadmeGo tree readmeNames

/-- The `analysis` dictionary as read by `_prepare_prompt`; each field is
`none` when the corresponding key is absent from the dictionary. -/
structure Analysis where
  readme_content : Option Str
  file_structure : Option (List (Str × Str))
  code_samples : Option (List CodeSample)
  repo_type : Option Str
  languages : Option (List Str)

/-- Decimal rendering of a natural number, as Python `str(i)`. -/
def natToStr (n : Nat) : Str := (toString n).toList

/-- Python `sep.join(items)`. -/
def joinWith (sep : Str) : List Str → Str
  | [] => []
  | [x] => x
  | x :: xs => x ++ sep ++ joinWith sep xs

/-- The `## Sample i: ...` blocks of `_prepare_prompt`, with 1-based
enumeration. -/
def buildSamplesText : Nat → List CodeSample → Str
  | _, [] => []
  | i, s0 :: rest =>
    str "\n## Sample " ++ natToStr i ++ str ": " ++ s0.file ++ str "\n\n"
      ++ str "```" ++ s0.language ++ str "\n" ++ s0.content ++ str "\n```\n"
      ++ buildSamplesText (i + 1) rest

/-- The `code_samples` prompt slot: formatted blocks for the first three
samples, or the literal placeholder when the key is absent or empty. -/
def codeSamplesText (a : Analysis) : Str :=
  match a.code_samples with
  | none => str "No code samples available"
  | some [] => str "No code samples available"
  | some samples => buildSamplesText 1 (samples.take 3)

/-- The `file_structure` prompt slot: the first 20 entries rendered as
bullet lines, or the literal placeholder when the key is absent or empty. -/
def fileStructureText (a : Analysis) : Str :=
  match a.file_structure with
  | none => str "File structure not available"
  | some [] => str "File structure not available"
  | some items =>
    ((items.take 20).map (fun p => str "- " ++ p.1 ++ str " (" ++ p.2 ++ str ")\n")).foldr
      (· ++ ·) []

/-- A piece of the external prompt template: literal text or a named
substitution slot of `str.format`. -/
inductive TItem where
  | lit (t : Str)
  | slot (name : Str)
deriving DecidableEq

/-- Render a template by substituting every slot through `env`. -/
def renderTemplate (tmpl : List TItem) (env : Str → Str) : Str :=
  tmpl.foldr
    (fun it acc =>
      (match it with
       | TItem.lit t => t
       | TItem.slot n => env n) ++ acc)
    []

/-- The slot values assembled by `BaseSkillGenerator._prepare_prompt`;
`desc` is `repo_metadata.get('description')`. -/
def promptEnv (repoName repoUrl : Str) (desc : Option Str) (a : Analysis) : Str → Str :=
  fun n =>
    if n = str "repo_name" then repoName
    else if n = str "repo_url" then repoUrl
    else if n = str "repo_type" then a.repo_type.getD (str "unknown")
    else if n = str "languages" then joinWith (str ", ") (a.languages.getD [str "Unknown"])
    else if n = str "repo_description" then desc.getD (str "No description available")
    else if n = str "readme_content" then (a.readme_content.getD (str "README not found")).take 8000
    else if n = str "file_structure" then fileStructureText a
    else if n = str "code_samples" then codeSamplesText a
    else []

/-- Shallow embedding of `BaseSkillGenerator._prepare_prompt`: a pure
function of the template, the repository identity and the analysis. -/
def preparePrompt (tmpl : List TItem) (repoName repoUrl : Str) (desc : Option Str)
    (a : Analysis) : Str :=
  renderTemplate tmpl (promptEnv repoName repoUrl desc a)

/-- JSON values as produced by `json.loads`. -/
inductive Json where
  | null
  | boolean (b : Bool)
  | num (n : Int)
  | strv (s : Str)
  | arr (elems : List Json)
  | obj (fields : List (Str × Json))

/-- Python runtime errors that `_validate_skill_data` can raise (they are not
caught by the `json.JSONDecodeError` handler of `_parse_response`). -/
inductive PyErr where
  | typeError
  | attrError
deriving DecidableEq, Repr

/-- Dictionary lookup; with duplicate keys the last value wins, as in a
Python dict built by `json.loads`. -/
def objLookup (fs : List (Str × Json)) (k : Str) : Option Json :=
  (fs.reverse.find? (fun p => p.1 == k)).map (·.2)

/-- Key membership for a JSON object; `false` for any non-object. -/
def jsonHasKey (d : Json) (k : Str) : Bool :=
  match d with
  | .obj fs => fs.any (fun p => p.1 == k)
  | _ => false

/-- Key lookup for a JSON object; `none` for any non-object. -/
def jsonGetKey (d : Json) (k : Str) : Option Json :=
  match d with
  | .obj fs => objLookup fs k
  | _ => none

/-- `isinstance(d, dict)`. -/
def jsonIsObj (d : Json) : Bool :=
  match d with
  | .obj _ => true
  | _ => false

/-- `isinstance(d, list)`. -/
def jsonIsArr (d : Json) : Bool :=
  match d with
  | .arr _ => true
  | _ => false

/-- Python `key in d` on an arbitrary value: key membership on dicts,
substring test on strings, element membership on lists, `TypeError`
otherwise. -/
def pyContains (d : Json) (k : Str) : Except PyErr Bool :=
  match d with
  | .obj fs => .ok (fs.any (fun p => p.1 == k))
  | .strv s0 => .ok (containsSub s0 k)
  | .arr es =>
    .ok (es.any (fun e =>
      match e with
      | .strv t => t == k
      | _ => false))
  | _ => .error .typeError

/-- Python `d.get(k, dflt)`: only dicts have `.get`, every other value
raises `AttributeError`. -/
def pyDictGet (d : Json) (k : Str) (dflt : Json) : Except PyErr Json :=
  match d with
  | .obj fs => .ok ((objLookup fs k).getD dflt)
  | _ => .error .attrError

/-- `all(key in data for key in required_keys)`: short-circuiting, errors
propagate from the first evaluated membership test. -/
def allKeysContained (d : Json) : List Str → Except PyErr Bool
  | [] => .ok true
  | k :: rest =>
    match pyContains d k with
    | .error e => .error e
    | .ok false => .ok false
    | .ok true => allKeysContained d rest

/-- The `required_keys` list of `_validate_skill_data`. -/
def requiredKeys : List Str := [str "skill_md", str "references", str "templates"]

/-- Shallow embedding of `BaseSkillGenerator._validate_skill_data`,
including the Python runtime errors its operations can raise. -/
def validateSkillData (d : Json) : Except PyErr Bool :=
  match allKeysContained d requiredKeys with
  | .error e => .error e
  | .ok false => .ok false
  | .ok true =>
    match pyDictGet d (str "skill_md") (Json.obj []) with
    | .error e => .error e
    | .ok smd =>
      if !jsonIsObj smd then .ok false
      else if !jsonHasKey smd (str "frontmatter") || !jsonHasKey smd (str "content") then .ok false
      else
        let fm := (jsonGetKey smd (str "frontmatter")).getD (Json.obj [])
        match pyContains fm (str "name") with
        | .error e => .error e
        | .ok false => .ok false
        | .ok true =>
          match pyContains fm (str "description") with
          | .error e => .error e
          | .ok false => .ok false
          | .ok true =>
            match pyDictGet d (str "references") Json.null with
            | .error e => .error e
            | .ok refs =>
              if !jsonIsArr refs then .ok false
              else
                match pyDictGet d (str "templates") Json.null with
                | .error e => .error e
                | .ok tps => if !jsonIsArr tps then .ok false else .ok true

/-- The tail of `_parse_response` applied to an already-decoded JSON value:
return the document when validation succeeds, `None` when it returns false,
and propagate any Python runtime error. -/
def parseDecoded (d : Json) : Except PyErr (Option Json) :=
  match validateSkillData d with
  | .error e => .error e
  | .ok b => .ok (if b then some d else none)

/-- JSON whitespace skipping (space, tab, newline, carriage return). -/
def skipWsJson (l : Str) : Str :=
  l.dropWhile (fun c => c = ' ' || c = '\t' || c = '\n' || c = '\r')

/-- JSON string escape characters supported by the model. -/
def escChar (c : Char) : Option Char :=
  if c = '"' then some '"'
  else if c = '\\' then some '\\'
  else if c = '/' then some '/'
  else if c = 'n' then some '\n'
  else if c = 't' then some '\t'
  else if c = 'r' then some '\r'
  else if c = 'b' then some '\x08'
  else if c = 'f' then some '\x0c'
  else none

/-- Parse the body of a JSON string after the opening quote; returns the
decoded value and the text after the closing quote. -/
def parseJsonStr : Str → Option (Str × Str)
  | [] => none
  | '"' :: rest => some ([], rest)
  | '\\' :: rest =>
    match rest with
    | [] => none
    | c :: rest2 =>
      match escChar c with
      | some e => (parseJsonStr rest2).map (fun p => (e :: p.1, p.2))
      | none => none
  | c :: rest => (parseJsonStr rest).map (fun p => (c :: p.1, p.2))

/-- Value of a nonempty digit run. -/
def natOfDigits (ds : Str) : Nat :=
  ds.foldl (fun a c => a * 10 + (c.toNat - 48)) 0

/-- Parse a nonempty run of decimal digits. -/
def parseDigits (l : Str) : Option (Nat × Str) :=
  let ds := l.takeWhile Char.isDigit
  if ds.isEmpty then none else some (natOfDigits ds, l.dropWhile Char.isDigit)

mutual

/-- Fuel-indexed recursive-descent parser for one JSON value; the fuel is a
strict bound on recursion depth, made irrelevant by `jsonLoads`'s choice. -/
def parseJsonVal : Nat → Str → Option (Json × Str)
  | 0, _ => none
  | fuel + 1, l0 =>
    let l := skipWsJson l0
    match l with
    | [] => none
    | '{' :: rest =>
      match skipWsJson rest with
      | '}' :: r => some (Json.obj [], r)
      | _ => parseJsonMembers fuel rest []
    | '[' :: rest =>
      match skipWsJson rest with
      | ']' :: r => some (Json.arr [], r)
      | _ => parseJsonElems fuel rest []
    | '"' :: rest => (parseJsonStr rest).map (fun p => (Json.strv p.1, p.2))
    | '-' :: rest => (parseDigits rest).map (fun p => (Json.num (-(p.1 : Int)), p.2))
    | c :: _ =>
      if (str "true").isPrefixOf l then some (Json.boolean true, l.drop 4)
      else if (str "false").isPrefixOf l then some (Json.boolean false, l.drop 5)
      else if (str "null").isPrefixOf l then some (Json.null, l.drop 4)
      else if c.isDigit then (parseDigits l).map (fun p => (Json.num (p.1 : Int), p.2))
      else none

/-- Parse the members of a JSON object after `{` (nonempty case). -/
def parseJsonMembers : Nat → Str → List (Str × Json) → Option (Json × Str)
  | 0, _, _ => none
  | fuel + 1, l, acc =>
    match skipWsJson l with
    | '"' :: rest =>
      match parseJsonStr rest with
      | none => none
      | some (key, r1) =>
        match skipWsJson r1 with
        | ':' :: r2 =>
          match parseJsonVal fuel r2 with
          | none => none
          | some (v, r3) =>
            match skipWsJson r3 with
            | ',' :: r4 => parseJsonMembers fuel r4 (acc ++ [(key, v)])
            | '}' :: r4 => some (Json.obj (acc ++ [(key, v)]), r4)
            | _ => none
        | _ => none
    | _ => none

/-- Parse the elements of a JSON array after `[` (nonempty case). -/
def parseJsonElems : Nat → Str → List Json → Option (Json × Str)
  | 0, _, _ => none
  | fuel + 1, l, acc =>
    match parseJsonVal fuel l with
    | none => none
    | some (v, r) =>
      match skipWsJson r with
      | ',' :: r2 => parseJsonElems fuel r2 (acc ++ [v])
      | ']' :: r2 => some (Json.arr (acc ++ [v]), r2)
      | _ => none

end

/-- Model of `json.loads`: parse one value, then require only whitespace to
remain; `none` models `json.JSONDecodeError`. -/
def jsonLoads (l : Str) : Option Json :=
  match parseJsonVal (2 * l.length + 4) l with
  | some (v, r) => if (skipWsJson r).isEmpty then some v else none
  | none => none

/-- The candidate-extraction step of `_parse_response`: substring between
the first ```` ```json ```` marker (or first ```` ``` ````) and the last
```` ``` ````, stripped; or the whole stripped text when no marker occurs. -/
def extractCandidate (t : Str) : Str :=
  match firstIdx? t (str "```json") with
  | some i =>
    let e := (lastIdx? t (str "```")).getD 0
    pyStrip (pySlice (i + 7) e t)
  | none =>
    match firstIdx? t (str "```") with
    | some i =>
      let e := (lastIdx? t (str "```")).getD 0
      pyStrip (pySlice (i + 3) e t)
    | none => pyStrip t

/-- Shallow embedding of `BaseSkillGenerator._parse_response`: extract the
candidate, decode it, validate; a decode failure yields `None`, a validation
failure yields `None`, a Python runtime error propagates. -/
def parseResponse (t : Str) : Except PyErr (Option Json) :=
  match jsonLoads (extractCandidate t) with
  | none => .ok none
  | some d => parseDecoded d

/-- Wrap a payload in a single fenced json block, as in the spec's
end-to-end scenario A. -/
def wrapJson (p : Str) : Str := str "```json\n" ++ p ++ str "\n```"

/-- The `{filename, content}` shape for one element of `references` or
`templates` (claim C2's wording). -/
def elemShapeOk (e : Json) : Bool :=
  jsonHasKey e (str "filename") && jsonHasKey e (str "content")

/-- The rejection condition of claim C1, read literally: a top-level key is
missing, or `skill_md` is not a mapping containing both `frontmatter` and
`content`, or `frontmatter` is missing `name` or `description`, or
`references`/`templates` is not a sequence. -/
def claimC1Cond (d : Json) : Bool :=
  !jsonHasKey d (str "skill_md") || !jsonHasKey d (str "references")
    || !jsonHasKey d (str "templates")
    || (match jsonGetKey d (str "skill_md") with
        | none => true
        | some smd =>
          !(jsonIsObj smd && jsonHasKey smd (str "frontmatter")
              && jsonHasKey smd (str "content"))
            || (match jsonGetKey smd (str "frontmatter") with
                | none => true
                | some fm =>
                  !jsonHasKey fm (str "name") || !jsonHasKey fm (str "description")))
    || (match jsonGetKey d (str "references") with
        | none => true
        | some r => !jsonIsArr r)
    || (match jsonGetKey d (str "templates") with
        | none => true
        | some r => !jsonIsArr r)

/-- The amended rejection condition for claim C1: as `claimC1Cond`, but the
`frontmatter` clause applies only to mapping-valued `frontmatter` (the code
checks membership with Python `in`, which on a non-mapping `frontmatter`
does not test for keys). -/
def amendC1Cond (d : Json) : Bool :=
  !jsonHasKey d (str "skill_md") || !jsonHasKey d (str "references")
    || !jsonHasKey d (str "templates")
    || (match jsonGetKey d (str "skill_md") with
        | none => true
        | some smd =>
          !(jsonIsObj smd && jsonHasKey smd (str "frontmatter")
              && jsonHasKey smd (str "content"))
            || (match jsonGetKey smd (str "frontmatter") with
                | none => true
                | some fm =>
                  jsonIsObj fm
                    && (!jsonHasKey fm (str "name") || !jsonHasKey fm (str "description"))))
    || (match jsonGetKey d (str "references") with
        | none => true
        | some r => !jsonIsArr r)
    || (match jsonGetKey d (str "templates") with
        | none => true
        | some r => !jsonIsArr r)

/-- Branch outcomes of one run of `generate_skill_workflow` in `app.py`:
which stage succeeded, failed, or raised an uncaught exception. -/
structure RunOutcome where
  urlValid : Bool
  metadataOk : Bool
  cloneOk : Bool
  generateOk : Bool
  buildRaises : Bool
  validatePasses : Bool
  validateRaises : Bool
  packageRaises : Bool
  packageOk : Bool
  dbRaises : Bool
deriving DecidableEq, Repr

/-- Observable effects of one `generate_skill_workflow` run: how many times
`analyzer.cleanup` was invoked, and whether the run ended in the generic
`except Exception` handler. -/
structure WorkflowTrace where
  cleanups : Nat
  raised : Bool
deriving DecidableEq, Repr

/-- Control-flow skeleton of `app.generate_skill_workflow` (lines 395-492):
early returns before the clone perform no cleanup; the generation-failure
and packaging-failure paths and the success path call `cleanup` once; an
exception raised by the builder, validator or packager jumps to the
`except` handler, which shows the error but does not call `cleanup`.
The advisory validation verdict (`validatePasses`) does not change the
path. -/
def generateSkillWorkflow (o : RunOutcome) : WorkflowTrace :=
  if !o.urlValid then ⟨0, false⟩
  else if !o.metadataOk then ⟨0, false⟩
  else if !o.cloneOk then ⟨0, false⟩
  else if !o.generateOk then ⟨1, false⟩
  else if o.buildRaises then ⟨0, true⟩
  else if o.validateRaises then ⟨0, true⟩
  else if o.packageRaises then ⟨0, true⟩
  else if !o.packageOk then ⟨1, false⟩
  else if o.dbRaises then ⟨1, true⟩
  else ⟨1, false⟩

/-- A clone was obtained: the URL validated, the metadata fetch succeeded
and `clone_repository` returned a path. -/
def cloneObtained (o : RunOutcome) : Bool :=
  o.urlValid && o.metadataOk && o.cloneOk

/-- The payload of the spec's end-to-end scenario A. -/
def payloadA : Str :=
  str "\x7b\"skill_md\": \x7b\"frontmatter\": \x7b\"name\": \"x\", \"description\": \"d\"\x7d, \"content\": \"c\"\x7d, \"references\": [], \"templates\": []\x7d"

/-- The document encoded by `payloadA`. -/
def docA : Json :=
  Json.obj
    [ (str "skill_md",
        Json.obj
          [ (str "frontmatter",
              Json.obj
                [ (str "name", Json.strv (str "x")),
                  (str "description", Json.strv (str "d")) ]),
            (str "content", Json.strv (str "c")) ]),
      (str "references", Json.arr []),
      (str "templates", Json.arr []) ]

/-- A valid SkillDocument payload whose `content` field itself contains
fence markers. -/
def payloadFence : Str :=
  str "\x7b\"skill_md\": \x7b\"frontmatter\": \x7b\"name\": \"x\", \"description\": \"d\"\x7d, \"content\": \"a```b```c\"\x7d, \"references\": [], \"templates\": []\x7d"

/-- The document encoded by `payloadFence`. -/
def docFence : Json :=
  Json.obj
    [ (str "skill_md",
        Json.obj
          [ (str "frontmatter",
              Json.obj
                [ (str "name", Json.strv (str "x")),
                  (str "description", Json.strv (str "d")) ]),
            (str "content", Json.strv (str "a```b```c")) ]),
      (str "references", Json.arr []),
      (str "templates", Json.arr []) ]

/-- A document whose `frontmatter` is the *string* `"namedescription"`
rather than a mapping. -/
def docStrFm : Json :=
  Json.obj
    [ (str "skill_md",
        Json.obj
          [ (str "frontmatter", Json.strv (str "namedescription")),
            (str "content", Json.strv (str "c")) ]),
      (str "references", Json.arr []),
      (str "templates", Json.arr []) ]

/-- A document whose `references` list contains an element without the
`{filename, content}` shape. -/
def docBadElem : Json :=
  Json.obj
    [ (str "skill_md",
        Json.obj
          [ (str "frontmatter",
              Json.obj
                [ (str "name", Json.strv (str "x")),
                  (str "description", Json.strv (str "d")) ]),
            (str "content", Json.strv (str "c")) ]),
      (str "references", Json.arr [Json.obj []]),
      (str "templates", Json.arr []) ]

/-- An analysis mapping as produced by `analyze_repository` for a repository
with no README and no extractable structure: every key is present, and
`readme_content` is the empty string returned by `_extract_readme`. -/
def analysisNoReadme : Analysis :=
  { readme_content := some (extractReadme [])
    file_structure := some []
    code_samples := some []
    repo_type := some (str "library")
    languages := some [] }

theorem isPrefixOf_iff {pat l : Str} : pat.isPrefixOf l = true ↔ ∃ t, l = pat ++ t := by
  induction pat generalizing l with
  | nil => simp [List.isPrefixOf]
  | cons a as ih =>
    cases l with
    | nil => simp [List.isPrefixOf]
    | cons b bs =>
      simp only [List.isPrefixOf, Bool.and_eq_true, beq_iff_eq, ih, List.cons_append,
        List.cons.injEq]
      constructor
      · rintro ⟨rfl, t, rfl⟩
        exact ⟨t, rfl, rfl⟩
      · rintro ⟨t, rfl, rfl⟩
        exact ⟨rfl, t, rfl⟩

theorem isSuffixOf_iff {pat l : Str} : pat.isSuffixOf l = true ↔ ∃ u, l = u ++ pat := by
  simp only [List.isSuffixOf, isPrefixOf_iff]
  constructor
  · rintro ⟨t, ht⟩
    refine ⟨t.reverse, ?_⟩
    have := congrArg List.reverse ht
    simpa using this
  · rintro ⟨u, rfl⟩
    exact ⟨u.reverse, by simp⟩

theorem isPrefixOf_self {l : Str} : l.isPrefixOf l = true :=
  isPrefixOf_iff.mpr ⟨[], by simp⟩

theorem length_le_of_isPrefixOf {pat l : Str} (h : pat.isPrefixOf l = true) :
    pat.length ≤ l.length := by
  obtain ⟨t, rfl⟩ := isPrefixOf_iff.mp h
  simp

theorem firstIdx?_of_prefixTrue {pat l : Str} (h : pat.isPrefixOf l = true) :
    firstIdx? l pat = some 0 := by
  rw [firstIdx?.eq_def]
  simp [h]

theorem containsSub_of_prefixTrue {pat l : Str} (h : pat.isPrefixOf l = true) :
    containsSub l pat = true := by
  rw [containsSub, firstIdx?_of_prefixTrue h]
  rfl

theorem containsSub_cons_false {c : Char} {t pat : Str}
    (h : containsSub (c :: t) pat = false) : containsSub t pat = false := by
  rw [containsSub] at h ⊢
  rw [firstIdx?] at h
  by_cases hp : pat.isPrefixOf (c :: t) = true
  · simp [hp] at h
  · simp only [hp] at h
    simp only [Bool.false_eq_true, if_false] at h
    cases hfi : firstIdx? t pat with
    | none => rfl
    | some i => rw [hfi] at h; simp at h

theorem containsSub_iff {l pat : Str} :
    containsSub l pat = true ↔ ∃ u v, l = u ++ pat ++ v := by
  induction l with
  | nil =>
    rw [containsSub, firstIdx?]
    cases pat with
    | nil => simp
    | cons a as =>
      simp [List.isPrefixOf]
  | cons c t ih =>
    rw [containsSub, firstIdx?]
    by_cases hp : pat.isPrefixOf (c :: t) = true
    · simp only [hp, if_true, Option.isSome_some, true_iff]
      obtain ⟨tl, htl⟩ := isPrefixOf_iff.mp hp
      exact ⟨[], tl, by simpa using htl⟩
    · simp only [hp]
      simp only [Bool.false_eq_true, if_false]
      have hmap : (Option.map (· + 1) (firstIdx? t pat)).isSome = (firstIdx? t pat).isSome := by
        cases firstIdx? t pat <;> rfl
      rw [hmap]
      rw [containsSub] at ih
      rw [ih]
      constructor
      · rintro ⟨u, v, rfl⟩
        exact ⟨c :: u, v, rfl⟩
      · rintro ⟨u, v, huv⟩
        cases u with
        | nil =>
          exfalso
          apply hp
          apply isPrefixOf_iff.mpr
          exact ⟨v, by simpa using huv⟩
        | cons x u' =>
          obtain ⟨rfl, h2⟩ := by simpa using huv
          exact ⟨u', v, by simpa [List.append_assoc] using h2⟩

theorem containsSub_append_left {a l pat : Str} (h : containsSub l pat = true) :
    containsSub (a ++ l) pat = true := by
  obtain ⟨u, v, rfl⟩ := containsSub_iff.mp h
  exact containsSub_iff.mpr ⟨a ++ u, v, by simp⟩

theorem containsSub_append_right {l b pat : Str} (h : containsSub l pat = true) :
    containsSub (l ++ b) pat = true := by
  obtain ⟨u, v, rfl⟩ := containsSub_iff.mp h
  exact containsSub_iff.mpr ⟨u, v ++ b, by simp⟩

theorem containsSub_of_patSplit {l q r : Str} (h : containsSub l (q ++ r) = true) :
    containsSub l q = true := by
  obtain ⟨u, v, rfl⟩ := containsSub_iff.mp h
  exact containsSub_iff.mpr ⟨u, r ++ v, by simp⟩

theorem firstIdx?_none_of_not_contains {l pat : Str} (h : containsSub l pat = false) :
    firstIdx? l pat = none := by
  rw [containsSub] at h
  cases hfi : firstIdx? l pat with
  | none => rfl
  | some i => rw [hfi] at h; simp at h

theorem lastIdx?_none_of_longer {l pat : Str} (hne : pat ≠ []) (h : l.length < pat.length) :
    lastIdx? l pat = none := by
  induction l with
  | nil =>
    rw [lastIdx?]
    have : pat.isPrefixOf ([] : Str) = false := by
      cases pat with
      | nil => exact absurd rfl hne
      | cons a as => rfl
    simp [this]
  | cons c t ih =>
    rw [lastIdx?]
    have ht : t.length < pat.length := by simp at h; omega
    rw [ih ht]
    have : pat.isPrefixOf (c :: t) = false := by
      by_contra hcon
      have := length_le_of_isPrefixOf (by simpa using hcon)
      omega
    simp [this]

theorem lastIdx?_append_pat {u pat : Str} (hne : pat ≠ []) :
    lastIdx? (u ++ pat) pat = some u.length := by
  induction u with
  | nil =>
    cases pat with
    | nil => exact absurd rfl hne
    | cons a as =>
      rw [List.nil_append, lastIdx?]
      rw [lastIdx?_none_of_longer hne (by simp)]
      simp [isPrefixOf_self]
  | cons x u' ih =>
    rw [List.cons_append, lastIdx?]
    rw [ih]
    simp

theorem pyStrip_cons_ws {c : Char} {l : Str} (h : isWsPy c = true) :
    pyStrip (c :: l) = pyStrip l := by
  simp [pyStrip, trimLeft, List.dropWhile_cons, h]

theorem trimRight_append_ws {c : Char} {l : Str} (h : isWsPy c = true) :
    trimRight (l ++ [c]) = trimRight l := by
  simp [trimRight, List.reverse_append, List.dropWhile_cons, h]

theorem pyStrip_append_ws {c : Char} {l : Str} (h : isWsPy c = true) :
    pyStrip (l ++ [c]) = pyStrip l := by
  induction l with
  | nil =>
    simp [pyStrip, trimLeft, trimRight, List.dropWhile_cons, h]
  | cons a t ih =>
    by_cases ha : isWsPy a = true
    · rw [List.cons_append, pyStrip_cons_ws ha, pyStrip_cons_ws ha, ih]
    · have ha' : isWsPy a = false := by
        cases hh : isWsPy a with
        | false => rfl
        | true => exact absurd hh ha
      rw [List.cons_append]
      show trimRight (trimLeft (a :: (t ++ [c]))) = trimRight (trimLeft (a :: t))
      rw [trimLeft, trimLeft, List.dropWhile_cons, List.dropWhile_cons, ha']
      simp only [Bool.false_eq_true, if_false]
      rw [show a :: (t ++ [c]) = (a :: t) ++ [c] from rfl]
      exact trimRight_append_ws h

theorem wrapJson_decomp (p : Str) :
    wrapJson p = (str "```json" ++ ('\n' :: (p ++ ['\n']))) ++ str "```" := by
  show str "```json\n" ++ p ++ str "\n```" = _
  have h1 : str "```json\n" = str "```json" ++ ['\n'] := by decide
  have h2 : str "\n```" = '\n' :: str "```" := by decide
  rw [h1, h2]
  simp [List.append_assoc]

theorem extractCandidate_wrap (p : Str) : extractCandidate (wrapJson p) = pyStrip p := by
  have hjson : (str "```json").isPrefixOf (wrapJson p) = true := by
    apply isPrefixOf_iff.mpr
    refine ⟨('\n' :: (p ++ ['\n'])) ++ str "```", ?_⟩
    rw [wrapJson_decomp]
    simp [List.append_assoc]
  have hfirst : firstIdx? (wrapJson p) (str "```json") = some 0 := firstIdx?_of_prefixTrue hjson
  have hlast : lastIdx? (wrapJson p) (str "```") = some (9 + p.length) := by
    have := @lastIdx?_append_pat (str "```json" ++ ('\n' :: (p ++ ['\n'])))
      (str "```") (by decide)
    rw [← wrapJson_decomp] at this
    rw [this]
    congr 1
    simp [str]
    omega
  have hslice : pySlice 7 (9 + p.length) (wrapJson p) = '\n' :: (p ++ ['\n']) := by
    rw [pySlice, wrapJson_decomp]
    have hlen : (str "```json" ++ ('\n' :: (p ++ ['\n']))).length = 9 + p.length := by
      simp [str]
      omega
    rw [List.take_left' hlen]
    have h7 : (str "```json").length = 7 := by decide
    calc (str "```json" ++ ('\n' :: (p ++ ['\n']))).drop 7
        = (str "```json" ++ ('\n' :: (p ++ ['\n']))).drop (str "```json").length := by rw [h7]
      _ = '\n' :: (p ++ ['\n']) := List.drop_left _ _
  rw [extractCandidate, hfirst, hlast]
  show pyStrip (pySlice (0 + 7) (9 + p.length) (wrapJson p)) = pyStrip p
  rw [Nat.zero_add, hslice]
  rw [show '\n' :: (p ++ ['\n']) = '\n' :: (p ++ ['\n']) from rfl]
  rw [pyStrip_cons_ws (by decide)]
  exact pyStrip_append_ws (by decide)

theorem extractCandidate_plain {p : Str} (h : containsSub p (str "```") = false) :
    extractCandidate p = pyStrip p := by
  have hjson : containsSub p (str "```json") = false := by
    cases hc : containsSub p (str "```json") with
    | false => rfl
    | true =>
      exfalso
      have : containsSub p (str "```") = true := by
        have hsplit : str "```json" = str "```" ++ str "json" := by decide
        rw [hsplit] at hc
        exact containsSub_of_patSplit hc
      rw [this] at h
      exact Bool.true_eq_false.mp h
  rw [extractCandidate, firstIdx?_none_of_not_contains hjson,
    firstIdx?_none_of_not_contains h]

/-- Claim C3 (counterexample): for the valid SkillDocument payload
`payloadFence`, whose `content` string itself contains fence markers,
parsing the payload wrapped in a single fenced json block yields the
document while parsing the bare payload yields null — the two results are
not equal, contradicting the claim as stated. -/
theorem parse_wrap_fence_payload_differs :
    parseResponse (wrapJson payloadFence) = .ok (some docFence) ∧
      parseResponse payloadFence = .ok none ∧
      parseResponse (wrapJson payloadFence) ≠ parseResponse payloadFence := by
  refine ⟨by rfl, by rfl, ?_⟩
  intro h
  rw [show parseResponse (wrapJson payloadFence) = .ok (some docFence) from rfl,
    show parseResponse payloadFence = .ok none from rfl] at h
  simp at h

/-- Claim C3 (amended): for every SkillDocument JSON payload that contains
no fence marker (the substring made of three backticks), parsing the
payload wrapped in a single fenced json block yields exactly the same
result as parsing the bare payload directly, both reducing to the stripped
payload as extraction candidate (and raw text with no fence markers is
parsed whole after trimming). -/
theorem parse_wrapped_eq_parse_bare (p : Str)
    (h : containsSub p (str "```") = false) :
    parseResponse (wrapJson p) = parseResponse p := by
  rw [parseResponse, parseResponse, extractCandidate_wrap, extractCandidate_plain h]

/-- Witness for `parse_wrapped_eq_parse_bare` at the scenario-A payload. -/
theorem parse_wrapped_eq_parse_bare_witness :
    containsSub payloadA (str "```") = false ∧
      parseResponse (wrapJson payloadA) = parseResponse payloadA :=
  ⟨by decide, parse_wrapped_eq_parse_bare payloadA (by decide)⟩

/-- Claim C5 (counterexample): when the clone succeeds and the builder then
raises, the run ends in the generic exception handler and `cleanup` is
never invoked — the scratch clone survives, contradicting the claim that
cleanup runs exactly once on every exit path. -/
theorem workflow_build_exception_skips_cleanup :
    cloneObtained ⟨true, true, true, true, true, true, false, false, false, false⟩ = true ∧
      generateSkillWorkflow ⟨true, true, true, true, true, true, false, false, false, false⟩ =
        ⟨0, true⟩ ∧
      (generateSkillWorkflow
        ⟨true, true, true, true, true, true, false, false, false, false⟩).cleanups ≠ 1 := by
  decide

/-- Claim C5 (amended): `cleanup` is invoked exactly once on every
non-exception exit path after a successful clone (generation failure,
packaging failure, success), and never before a successful clone; but a run
that ends in the `except` handler because the builder, validator or
packager raised performs no cleanup at all. -/
theorem workflow_cleanup_on_normal_exits (o : RunOutcome) :
    (cloneObtained o = true → (generateSkillWorkflow o).raised = false →
      (generateSkillWorkflow o).cleanups = 1) ∧
    (cloneObtained o = false → (generateSkillWorkflow o).cleanups = 0) := by
  obtain ⟨u, m, cl, g, b, vp, vr, pr, pk, db⟩ := o
  cases u <;> cases m <;> cases cl <;> cases g <;> cases b <;> cases vr <;> cases pr <;>
    cases pk <;> cases db <;> simp [generateSkillWorkflow, cloneObtained]

/-- Witness for `workflow_cleanup_on_normal_exits` at a successful run. -/
theorem workflow_cleanup_on_normal_exits_witness :
    cloneObtained ⟨true, true, true, true, false, true, false, false, true, false⟩ = true ∧
      (generateSkillWorkflow
        ⟨true, true, true, true, false, true, false, false, true, false⟩).cleanups = 1 :=
  ⟨by decide,
    (workflow_cleanup_on_normal_exits _).1 (by decide) (by decide)⟩

theorem validateGithubUrl_cases (url : Str) :
    (validateGithubUrl url).1 = false ∨ validateGithubUrl url = (true, str "") := by
  simp only [validateGithubUrl]
  split_ifs <;> simp

theorem validateGithubUrl_true_iff (url : Str) :
    validateGithubUrl url = (true, str "") ↔
      url ≠ [] ∧ url.length ≤ 500 ∧ (urlparse url).scheme = str "https" ∧
        ((urlparse url).netloc = str "github.com" ∨
          (urlparse url).netloc = str "www.github.com") ∧
        2 ≤ (pathParts url).length ∧
        ownerOk ((pathParts url).getD 0 []) = true ∧
        repoOk (stripGitAllOcc ((pathParts url).getD 1 [])) = true := by
  simp only [validateGithubUrl]
  split_ifs with h1 h2 h3 h4 h5 h6 h7
  all_goals simp_all [List.isEmpty_iff, not_or, Nat.not_lt, Bool.not_eq_true]
  all_goals tauto

/-- Claim C6 (counterexample): the input `https://www.github.com/a/b` has a
host other than `github.com`, yet `validate_github_url` accepts it — the
code also whitelists `www.github.com`, contradicting the claim as
stated. -/
theorem validate_accepts_www_host :
    (urlparse (str "https://www.github.com/a/b")).netloc ≠ str "github.com" ∧
      validateGithubUrl (str "https://www.github.com/a/b") = (true, str "") := by
  decide

/-- Claim C6 (amended): `validate_github_url` returns failure whenever the
input is empty, longer than 500 characters, has a scheme other than
`https`, has a host other than `github.com` or `www.github.com`, or has an
owner segment outside `[A-Za-z0-9_-]+` or a repo segment (after removing
every `.git` occurrence) outside `[A-Za-z0-9_.-]+`; the check is a pure
function of the input string and performs no network access. -/
theorem validate_rejects_bad_locators (url : Str)
    (h : url = [] ∨ 500 < url.length ∨ (urlparse url).scheme ≠ str "https" ∨
      ((urlparse url).netloc ≠ str "github.com" ∧
        (urlparse url).netloc ≠ str "www.github.com") ∨
      (2 ≤ (pathParts url).length ∧ ownerOk ((pathParts url).getD 0 []) = false) ∨
      (2 ≤ (pathParts url).length ∧
        repoOk (stripGitAllOcc ((pathParts url).getD 1 [])) = false)) :
    (validateGithubUrl url).1 = false := by
  rcases validateGithubUrl_cases url with hc | hc
  · exact hc
  · exfalso
    obtain ⟨hne, hlen, hscheme, hnet, hlen2, hown, hrepo⟩ :=
      (validateGithubUrl_true_iff url).mp hc
    rcases h with h | h | h | h | h | h
    · exact hne h
    · omega
    · exact h hscheme
    · rcases hnet with hn | hn
      · exact h.1 hn
      · exact h.2 hn
    · rw [hown] at h
      simp at h
    · rw [hrepo] at h
      simp at h

/-- Witness for `validate_rejects_bad_locators` at a non-HTTPS locator. -/
theorem validate_rejects_bad_locators_witness :
    (urlparse (str "http://github.com/a/b")).scheme ≠ str "https" ∧
      (validateGithubUrl (str "http://github.com/a/b")).1 = false :=
  ⟨by decide,
    validate_rejects_bad_locators _ (Or.inr (Or.inr (Or.inl (by decide))))⟩

theorem rmOccAux_no_occ {pat l : Str} (h : containsSub l pat = false) :
    rmOccAux pat l 0 = l := by
  induction l with
  | nil => rfl
  | cons c t ih =>
    cases hp : pat.isPrefixOf (c :: t) with
    | true =>
      exfalso
      rw [containsSub_of_prefixTrue hp] at h
      exact Bool.true_eq_false.mp h
    | false =>
      simp [rmOccAux, hp, ih (containsSub_cons_false h)]

theorem rmOccAux_git_suffix :
    ∀ u : Str, containsSub u (str ".git") = false →
      rmOccAux (str ".git") (u ++ str ".git") 0 = u := by
  intro u
  induction u with
  | nil => intro _; decide
  | cons c u' ih =>
    intro h
    cases hp : (str ".git").isPrefixOf (c :: u' ++ str ".git") with
    | true =>
      exfalso
      obtain ⟨t0, ht⟩ := isPrefixOf_iff.mp hp
      rw [show str ".git" = ['.', 'g', 'i', 't'] from rfl] at ht
      match u', ht with
      | [], ht =>
        simp only [List.cons_append, List.nil_append] at ht
        injection ht with e1 ht1
        injection ht1 with e2 ht2
        exact absurd e2 (by decide)
      | [d], ht =>
        simp only [List.cons_append, List.nil_append] at ht
        injection ht with e1 ht1
        injection ht1 with e2 ht2
        injection ht2 with e3 ht3
        exact absurd e3 (by decide)
      | [d, e], ht =>
        simp only [List.cons_append, List.nil_append] at ht
        injection ht with e1 ht1
        injection ht1 with e2 ht2
        injection ht2 with e3 ht3
        injection ht3 with e4 ht4
        exact absurd e4 (by decide)
      | d :: e :: f :: u'', ht =>
        simp only [List.cons_append, List.nil_append] at ht
        injection ht with e1 ht1
        injection ht1 with e2 ht2
        injection ht2 with e3 ht3
        injection ht3 with e4 ht4
        subst e1; subst e2; subst e3; subst e4
        have hc : containsSub ('.' :: 'g' :: 'i' :: 't' :: u'') (str ".git") = true := by
          apply containsSub_of_prefixTrue
          apply isPrefixOf_iff.mpr
          exact ⟨u'', rfl⟩
        rw [hc] at h
        exact Bool.true_eq_false.mp h
    | false =>
      have hstep : rmOccAux (str ".git") (c :: u' ++ str ".git") 0 =
          c :: rmOccAux (str ".git") (u' ++ str ".git") 0 := by
        rw [show c :: u' ++ str ".git" = c :: (u' ++ str ".git") from rfl] at hp ⊢
        simp only [rmOccAux, hp, Bool.false_eq_true, if_false]
      rw [hstep, ih (containsSub_cons_false h)]

theorem stripGit_eq_suffix_strip {seg : Str}
    (h : containsSub (stripGitSuffixOnly seg) (str ".git") = false) :
    stripGitAllOcc seg = stripGitSuffixOnly seg := by
  by_cases hs : (str ".git").isSuffixOf seg = true
  · obtain ⟨u, rfl⟩ := isSuffixOf_iff.mp hs
    have htake : stripGitSuffixOnly (u ++ str ".git") = u := by
      rw [stripGitSuffixOnly, if_pos hs]
      have hl : (u ++ str ".git").length - 4 = u.length := by
        simp [str]
      rw [hl]
      exact List.take_left u _
    rw [htake] at h ⊢
    rw [stripGitAllOcc, removeAllOcc]
    simp only [List.isEmpty_iff]
    rw [if_neg (by decide)]
    exact rmOccAux_git_suffix u h
  · have hseq : stripGitSuffixOnly seg = seg := by
      rw [stripGitSuffixOnly, if_neg hs]
    rw [hseq] at h ⊢
    rw [stripGitAllOcc, removeAllOcc]
    simp only [List.isEmpty_iff]
    rw [if_neg (by decide)]
    exact rmOccAux_no_occ h

/-- Claim C9 (counterexample): for the validated locator
`https://github.com/owner/my.github.tools`, the code removes the interior
`.git` occurrence — the extracted repo is `myhub.tools`, not the
suffix-stripped segment `my.github.tools` the claim promises. -/
theorem extract_removes_interior_git :
    (validateGithubUrl (str "https://github.com/owner/my.github.tools")).1 = true ∧
      stripGitSuffixOnly (str "my.github.tools") = str "my.github.tools" ∧
      extractRepoInfo (str "https://github.com/owner/my.github.tools") =
        { owner := str "owner", repo := str "myhub.tools",
          full_name := str "owner/myhub.tools" } ∧
      (extractRepoInfo (str "https://github.com/owner/my.github.tools")).repo ≠
        stripGitSuffixOnly (str "my.github.tools") := by
  decide

/-- Claim C9 (amended): the repo component equals the second path segment
with every occurrence of the substring `.git` removed; when `.git` occurs
in the segment only as a trailing suffix (no occurrence remains in the
suffix-stripped remainder), this coincides with stripping the literal
suffix. -/
theorem extract_repo_git_suffix_strip (url owner seg : Str) (rest : List Str)
    (hparts : pathParts url = owner :: seg :: rest)
    (h : containsSub (stripGitSuffixOnly seg) (str ".git") = false) :
    (extractRepoInfo url).repo = stripGitSuffixOnly seg := by
  simp only [extractRepoInfo, hparts]
  exact stripGit_eq_suffix_strip h

/-- Witness for `extract_repo_git_suffix_strip` at
`https://github.com/o/r.git`. -/
theorem extract_repo_git_suffix_strip_witness :
    pathParts (str "https://github.com/o/r.git") = [str "o", str "r.git"] ∧
      containsSub (stripGitSuffixOnly (str "r.git")) (str ".git") = false ∧
      (extractRepoInfo (str "https://github.com/o/r.git")).repo =
        stripGitSuffixOnly (str "r.git") :=
  ⟨by decide, by decide,
    extract_repo_git_suffix_strip _ (str "o") (str "r.git") [] (by decide) (by decide)⟩

/-- Claim C10 (counterexample): in
`https://github.com/owner/.git/x` the first two path segments satisfy the
owner and repo patterns (`.git` matches `[A-Za-z0-9_.-]+`), yet validation
fails because the code first removes every `.git` occurrence from the repo
segment, leaving an empty string. -/
theorem validate_rejects_dotgit_segment :
    pathParts (str "https://github.com/owner/.git/x") =
        [str "owner", str ".git", str "x"] ∧
      ownerOk (str "owner") = true ∧ repoOk (str ".git") = true ∧
      (urlparse (str "https://github.com/owner/.git/x")).scheme = str "https" ∧
      (urlparse (str "https://github.com/owner/.git/x")).netloc = str "github.com" ∧
      (validateGithubUrl (str "https://github.com/owner/.git/x")).1 = false := by
  decide

/-- Claim C10 (amended): for every HTTPS `github.com` URL of at most 500
characters whose path has more than two segments, validation succeeds
whenever the owner segment matches its pattern and the repo segment still
matches its pattern after removal of every `.git` occurrence; the extra
segments are ignored both by validation and by owner/repo extraction, which
use only the first two path segments. -/
theorem validate_ignores_extra_segments (url owner seg : Str) (rest : List Str)
    (hparts : pathParts url = owner :: seg :: rest) (_hextra : rest ≠ [])
    (hlen : url.length ≤ 500)
    (hscheme : (urlparse url).scheme = str "https")
    (hnet : (urlparse url).netloc = str "github.com")
    (hown : ownerOk owner = true)
    (hrepo : repoOk (stripGitAllOcc seg) = true) :
    validateGithubUrl url = (true, str "") ∧
      extractRepoInfo url =
        { owner := owner, repo := stripGitAllOcc seg,
          full_name := owner ++ '/' :: stripGitAllOcc seg } := by
  have hne : url ≠ [] := by
    intro hh
    rw [hh] at hscheme
    exact absurd hscheme (by decide)
  constructor
  · apply (validateGithubUrl_true_iff url).mpr
    refine ⟨hne, hlen, hscheme, Or.inl hnet, ?_, ?_, ?_⟩ <;> simp [hparts, hown, hrepo]
  · simp [extractRepoInfo, hparts]

/-- Witness for `validate_ignores_extra_segments` at
`https://github.com/owner/repo/tree/main`. -/
theorem validate_ignores_extra_segments_witness :
    pathParts (str "https://github.com/owner/repo/tree/main") =
        [str "owner", str "repo", str "tree", str "main"] ∧
      validateGithubUrl (str "https://github.com/owner/repo/tree/main") = (true, str "") ∧
      extractRepoInfo (str "https://github.com/owner/repo/tree/main") =
        { owner := str "owner", repo := stripGitAllOcc (str "repo"),
          full_name := str "owner" ++ '/' :: stripGitAllOcc (str "repo") } :=
  ⟨by decide,
    (validate_ignores_extra_segments _ (str "owner") (str "repo") [str "tree", str "main"]
      (by decide) (by decide) (by decide) (by decide) (by decide) (by decide)
      (by decide)).1,
    (validate_ignores_extra_segments _ (str "owner") (str "repo") [str "tree", str "main"]
      (by decide) (by decide) (by decide) (by decide) (by decide) (by decide)
      (by decide)).2⟩

theorem safeNameOf_chars (fullName : Str) :
    ∀ c ∈ safeNameOf fullName, isOwnerChar c = true := by
  intro c hc
  obtain ⟨a, _, ha⟩ := List.mem_map.mp hc
  by_cases h : isOwnerChar a = true
  · rw [← ha]
    simp [h]
  · rw [← ha]
    have : isOwnerChar a = false := by
      cases hh : isOwnerChar a with
      | false => rfl
      | true => exact absurd hh h
    simp [this]
    decide

theorem safeNameOf_ne_nil {fullName : Str} (h : fullName ≠ []) :
    safeNameOf fullName ≠ [] := by
  intro hc
  exact h (List.map_eq_nil_iff.mp hc)

theorem safeNameOf_no_dot (fullName : Str) : ¬ '.' ∈ safeNameOf fullName := by
  intro hc
  have := safeNameOf_chars fullName '.' hc
  exact absurd this (by decide)

theorem safeNameOf_not_dot (fullName : Str) : safeNameOf fullName ≠ str "." := by
  intro hc
  apply safeNameOf_no_dot fullName
  rw [hc]
  decide

theorem safeNameOf_not_dotdot (fullName : Str) : safeNameOf fullName ≠ str ".." := by
  intro hc
  apply safeNameOf_no_dot fullName
  rw [hc]
  decide

theorem normalizeSegs_append_plain (p : PathSegs) {s : Str}
    (h1 : s ≠ []) (h2 : s ≠ str ".") (h3 : s ≠ str "..") :
    normalizeSegs (p ++ [s]) = normalizeSegs p ++ [s] := by
  rw [normalizeSegs, normalizeSegs, List.foldl_append]
  simp [h1, h2, h3]

theorem joinSegs_append_singleton (q : PathSegs) (s : Str) (hq : q ≠ []) :
    joinSegs (q ++ [s]) = joinSegs q ++ '/' :: s := by
  induction q with
  | nil => exact absurd rfl hq
  | cons x q' ih =>
    cases q' with
    | nil => rfl
    | cons y q'' =>
      rw [show (x :: y :: q'') ++ [s] = x :: ((y :: q'') ++ [s]) from rfl]
      rw [show joinSegs (x :: (y :: q'' ++ [s])) = x ++ '/' :: joinSegs (y :: q'' ++ [s])
        from rfl]
      rw [ih (by simp)]
      simp [joinSegs]

theorem renderAbsPath_child_startswith (q : PathSegs) (s : Str) :
    (renderAbsPath q).isPrefixOf (renderAbsPath (q ++ [s])) = true := by
  apply isPrefixOf_iff.mpr
  cases hq : q with
  | nil => exact ⟨s, rfl⟩
  | cons x q' =>
    refine ⟨'/' :: s, ?_⟩
    rw [renderAbsPath, renderAbsPath, joinSegs_append_singleton _ s (by simp)]
    simp

/-- Claim C4: for every owner/repo pair (however hostile), the scratch
directory name derived by `clone_repository` contains only characters in
`[A-Za-z0-9_-]`, the resolved clone path is the scratch root extended by
exactly that one segment (hence always a descendant of the resolved scratch
root), and the path-traversal guard that the code runs before any
filesystem mutation always passes. -/
theorem clone_path_stays_in_scratch_root (tempDir : PathSegs) (owner repo : Str) :
    (∀ c ∈ safeNameOf (owner ++ '/' :: repo), isOwnerChar c = true) ∧
      clonePathFor tempDir (owner ++ '/' :: repo) =
        normalizeSegs tempDir ++ [safeNameOf (owner ++ '/' :: repo)] ∧
      cloneTraversalCheck tempDir (owner ++ '/' :: repo) = true := by
  have hne : owner ++ '/' :: repo ≠ [] := by
    intro h
    have := congrArg List.length h
    simp at this
  have hmain : clonePathFor tempDir (owner ++ '/' :: repo) =
      normalizeSegs tempDir ++ [safeNameOf (owner ++ '/' :: repo)] := by
    rw [clonePathFor]
    exact normalizeSegs_append_plain tempDir (safeNameOf_ne_nil hne)
      (safeNameOf_not_dot _) (safeNameOf_not_dotdot _)
  refine ⟨safeNameOf_chars _, hmain, ?_⟩
  rw [cloneTraversalCheck, hmain]
  exact renderAbsPath_child_startswith _ _

/-- Witness for `clone_path_stays_in_scratch_root` at a traversal-shaped
repository name. -/
theorem clone_path_stays_in_scratch_root_witness :
    (∀ c ∈ safeNameOf (str "a" ++ '/' :: str "../../etc"), isOwnerChar c = true) ∧
      clonePathFor [str "data", str "temp"] (str "a" ++ '/' :: str "../../etc") =
        normalizeSegs [str "data", str "temp"] ++
          [safeNameOf (str "a" ++ '/' :: str "../../etc")] ∧
      cloneTraversalCheck [str "data", str "temp"] (str "a" ++ '/' :: str "../../etc") =
        true :=
  clone_path_stays_in_scratch_root [str "data", str "temp"] (str "a") (str "../../etc")

theorem joinSegs_append_tail (pre rel : PathSegs) :
    ∃ u, joinSegs (pre ++ rel) = u ++ joinSegs rel := by
  induction pre with
  | nil => exact ⟨[], rfl⟩
  | cons p ps ih =>
    obtain ⟨u, hu⟩ := ih
    cases hps : ps ++ rel with
    | nil =>
      obtain ⟨hps', hrel⟩ := List.append_eq_nil.mp hps
      subst hps'
      subst hrel
      exact ⟨p, by simp [joinSegs]⟩
    | cons y ys =>
      refine ⟨p ++ '/' :: u, ?_⟩
      rw [show (p :: ps) ++ rel = p :: (ps ++ rel) from rfl, hps]
      rw [show joinSegs (p :: y :: ys) = p ++ '/' :: joinSegs (y :: ys) from rfl]
      rw [← hps, hu]
      simp [List.append_assoc]

theorem containsSub_full_of_rel {pre rel : PathSegs} {pat : Str}
    (h : containsSub (pyLower (joinSegs rel)) pat = true) :
    containsSub (pyLower (renderAbsPath (pre ++ rel))) pat = true := by
  obtain ⟨u, hu⟩ := joinSegs_append_tail pre rel
  rw [renderAbsPath, hu]
  rw [show ('/' :: (u ++ joinSegs rel)) = ('/' :: u) ++ joinSegs rel from by simp]
  rw [pyLower, List.map_append]
  exact containsSub_append_left h

theorem sampleLoop_length {pre : PathSegs} {ext : Str} :
    ∀ (files : List SrcFile) (acc : List CodeSample), acc.length < 5 →
      (sampleLoop pre ext files acc).length ≤ 5 := by
  intro files
  induction files with
  | nil =>
    intro acc h
    rw [sampleLoop]
    omega
  | cons f rest ih =>
    intro acc h
    by_cases hs : skipSample pre f = true
    · simp only [sampleLoop, hs, if_true]
      exact ih acc h
    · have hs' : skipSample pre f = false := by
        cases hh : skipSample pre f with
        | false => rfl
        | true => exact absurd hh hs
      simp only [sampleLoop, hs', Bool.false_eq_true, if_false]
      by_cases hl : 5 ≤ (acc ++ [mkSample ext f]).length
      · simp only [hl, if_true]
        simp at hl ⊢
        omega
      · simp only [hl, if_false]
        apply ih
        simp at hl ⊢
        omega

theorem sampleLoop_mem {pre : PathSegs} {ext : Str} :
    ∀ (files : List SrcFile) (acc : List CodeSample) (e : CodeSample),
      e ∈ sampleLoop pre ext files acc →
      e ∈ acc ∨ ∃ f, f ∈ files ∧ skipSample pre f = false ∧ e = mkSample ext f := by
  intro files
  induction files with
  | nil =>
    intro acc e he
    rw [sampleLoop] at he
    exact Or.inl he
  | cons f rest ih =>
    intro acc e he
    by_cases hs : skipSample pre f = true
    · simp only [sampleLoop, hs, if_true] at he
      rcases ih acc e he with h | ⟨g, hg, hsk, hmk⟩
      · exact Or.inl h
      · exact Or.inr ⟨g, List.mem_cons_of_mem f hg, hsk, hmk⟩
    · have hs' : skipSample pre f = false := by
        cases hh : skipSample pre f with
        | false => rfl
        | true => exact absurd hh hs
      simp only [sampleLoop, hs', Bool.false_eq_true, if_false] at he
      by_cases hl : 5 ≤ (acc ++ [mkSample ext f]).length
      · simp only [hl, if_true] at he
        rcases List.mem_append.mp he with h | h
        · exact Or.inl h
        · simp at h
          exact Or.inr ⟨f, List.mem_cons_self f rest, hs', h⟩
      · simp only [hl, if_false] at he
        rcases ih _ e he with h | ⟨g, hg, hsk, hmk⟩
        · rcases List.mem_append.mp h with h' | h'
          · exact Or.inl h'
          · simp at h'
            exact Or.inr ⟨f, List.mem_cons_self f rest, hs', h'⟩
        · exact Or.inr ⟨g, List.mem_cons_of_mem f hg, hsk, hmk⟩

theorem extLoop_length {pre : PathSegs} {tree : List SrcFile} :
    ∀ (exts : List Str) (acc : List CodeSample), acc.length < 5 →
      (extLoop pre tree exts acc).length ≤ 5 := by
  intro exts
  induction exts with
  | nil =>
    intro acc h
    rw [extLoop]
    omega
  | cons ext rest ih =>
    intro acc h
    by_cases hl : 5 ≤ (sampleLoop pre ext ((tree.filter (extMatches ext)).take 10) acc).length
    · simp only [extLoop, hl, if_true]
      exact sampleLoop_length _ acc h
    · simp only [extLoop, hl, if_false]
      apply ih
      omega

theorem extLoop_mem {pre : PathSegs} {tree : List SrcFile} :
    ∀ (exts : List Str) (acc : List CodeSample) (e : CodeSample),
      e ∈ extLoop pre tree exts acc →
      e ∈ acc ∨ ∃ ext, ext ∈ exts ∧ ∃ f, f ∈ (tree.filter (extMatches ext)).take 10 ∧
        skipSample pre f = false ∧ e = mkSample ext f := by
  intro exts
  induction exts with
  | nil =>
    intro acc e he
    rw [extLoop] at he
    exact Or.inl he
  | cons ext rest ih =>
    intro acc e he
    by_cases hl : 5 ≤ (sampleLoop pre ext ((tree.filter (extMatches ext)).take 10) acc).length
    · simp only [extLoop, hl, if_true] at he
      rcases sampleLoop_mem _ acc e he with h | ⟨f, hf, hsk, hmk⟩
      · exact Or.inl h
      · exact Or.inr ⟨ext, List.mem_cons_self ext rest, f, hf, hsk, hmk⟩
    · simp only [extLoop, hl, if_false] at he
      rcases ih _ e he with h | ⟨ext', hext', f, hf, hsk, hmk⟩
      · rcases sampleLoop_mem _ acc e h with h' | ⟨f, hf, hsk, hmk⟩
        · exact Or.inl h'
        · exact Or.inr ⟨ext, List.mem_cons_self ext rest, f, hf, hsk, hmk⟩
      · exact Or.inr ⟨ext', List.mem_cons_of_mem ext hext', f, hf, hsk, hmk⟩

/-- Claim C7: for every repository tree (and any clone-directory location),
the extracted `code_samples` list has at most 5 entries, every entry's
content is at most 2000 characters, no entry's relative path contains a
case-insensitive `test` substring, and every entry comes from a tree file
with no hidden path segment whose size is positive and at most 100 KB. -/
theorem code_samples_invariants (pre : PathSegs) (tree : List SrcFile) (e : CodeSample)
    (he : e ∈ extractCodeSamples pre tree) :
    (extractCodeSamples pre tree).length ≤ 5 ∧
      e.content.length ≤ 2000 ∧
      containsSub (pyLower e.file) (str "test") = false ∧
      ∃ ext f, ext ∈ codeExts ∧ f ∈ tree ∧ e = mkSample ext f ∧
        (∀ seg ∈ f.path, isHiddenSeg seg = false) ∧ 0 < f.size ∧ f.size ≤ 102400 := by
  have hlen : (extractCodeSamples pre tree).length ≤ 5 :=
    extLoop_length codeExts [] (by simp)
  rw [extractCodeSamples] at he
  rcases extLoop_mem codeExts [] e he with h | ⟨ext, hext, f, hf, hsk, hmk⟩
  · simp at h
  have hftree : f ∈ tree := by
    have h1 : f ∈ tree.filter (extMatches ext) := List.take_subset 10 _ hf
    exact (List.mem_filter.mp h1).1
  have hsk' := hsk
  rw [skipSample] at hsk'
  simp only [Bool.or_eq_false_iff] at hsk'
  obtain ⟨⟨⟨htest, hhide⟩, hbig⟩, hzero⟩ := hsk'
  refine ⟨hlen, ?_, ?_, ext, f, hext, hftree, hmk, ?_, ?_, ?_⟩
  · rw [hmk]
    show ((f.content.take 5000).take 2000).length ≤ 2000
    exact List.length_take_le 2000 _
  · rw [hmk]
    show containsSub (pyLower (joinSegs f.path)) (str "test") = false
    cases hx : containsSub (pyLower (joinSegs f.path)) (str "test") with
    | false => rfl
    | true =>
      exfalso
      have := @containsSub_full_of_rel pre f.path (str "test") hx
      rw [fullPathStr] at htest
      rw [this] at htest
      exact Bool.true_eq_false.mp htest
  · intro seg hseg
    have hall := List.any_eq_false.mp hhide
    have := hall seg (List.mem_append.mpr (Or.inr hseg))
    cases hh : isHiddenSeg seg with
    | false => rfl
    | true => exact absurd hh this
  · have := of_decide_eq_false hzero
    omega
  · have := of_decide_eq_false hbig
    omega

/-- Witness for `code_samples_invariants` at a one-file repository. -/
theorem code_samples_invariants_witness :
    (extractCodeSamples [] [⟨[str "main.py"], 10, str "print(1)"⟩]).length ≤ 5 ∧
      (mkSample (str ".py") ⟨[str "main.py"], 10, str "print(1)"⟩).content.length ≤ 2000 ∧
      containsSub (pyLower (mkSample (str ".py")
        ⟨[str "main.py"], 10, str "print(1)"⟩).file) (str "test") = false ∧
      ∃ ext f, ext ∈ codeExts ∧ f ∈ [(⟨[str "main.py"], 10, str "print(1)"⟩ : SrcFile)] ∧
        mkSample (str ".py") ⟨[str "main.py"], 10, str "print(1)"⟩ = mkSample ext f ∧
        (∀ seg ∈ f.path, isHiddenSeg seg = false) ∧ 0 < f.size ∧ f.size ≤ 102400 :=
  code_samples_invariants [] [⟨[str "main.py"], 10, str "print(1)"⟩]
    (mkSample (str ".py") ⟨[str "main.py"], 10, str "print(1)"⟩) (by decide)

theorem renderTemplate_contains_slotVal (tmpl : List TItem) (env : Str → Str) (n : Str)
    (h : TItem.slot n ∈ tmpl) :
    containsSub (renderTemplate tmpl env) (env n) = true := by
  induction tmpl with
  | nil => simp at h
  | cons it rest ih =>
    rcases List.mem_cons.mp h with heq | hmem
    · subst heq
      rw [show renderTemplate (TItem.slot n :: rest) env =
        env n ++ renderTemplate rest env from rfl]
      exact containsSub_iff.mpr ⟨[], renderTemplate rest env, by simp⟩
    · cases it with
      | lit t =>
        rw [show renderTemplate (TItem.lit t :: rest) env =
          t ++ renderTemplate rest env from rfl]
        exact containsSub_append_left (ih hmem)
      | slot m =>
        rw [show renderTemplate (TItem.slot m :: rest) env =
          env m ++ renderTemplate rest env from rfl]
        exact containsSub_append_left (ih hmem)

/-- Claim C8 (amended): prompt assembly is a pure function of the template,
the repository identity and the analysis; when the `file_structure`
evidence is absent or empty the assembled prompt carries the literal
placeholder `File structure not available` in that slot, when
`code_samples` is absent or empty it carries `No code samples available`,
and when the repository metadata has no description it carries
`No description available` — in each case instead of the assembly failing.
(The `README not found` placeholder, by contrast, is substituted only when
the `readme_content` key is missing from the analysis mapping — see the
counterexample.) -/
theorem prompt_placeholders_on_missing_evidence (tmpl : List TItem)
    (repoName repoUrl : Str) (desc : Option Str) (a : Analysis) :
    ((a.file_structure = none ∨ a.file_structure = some []) →
      TItem.slot (str "file_structure") ∈ tmpl →
      containsSub (preparePrompt tmpl repoName repoUrl desc a)
        (str "File structure not available") = true) ∧
    ((a.code_samples = none ∨ a.code_samples = some []) →
      TItem.slot (str "code_samples") ∈ tmpl →
      containsSub (preparePrompt tmpl repoName repoUrl desc a)
        (str "No code samples available") = true) ∧
    (desc = none →
      TItem.slot (str "repo_description") ∈ tmpl →
      containsSub (preparePrompt tmpl repoName repoUrl desc a)
        (str "No description available") = true) := by
  refine ⟨fun hfs hslot => ?_, fun hcs hslot => ?_, fun hdesc hslot => ?_⟩
  · have henv : promptEnv repoName repoUrl desc a (str "file_structure") =
        fileStructureText a := rfl
    have hph : fileStructureText a = str "File structure not available" := by
      rcases hfs with h | h <;> simp [fileStructureText, h]
    have hmain := renderTemplate_contains_slotVal tmpl
      (promptEnv repoName repoUrl desc a) (str "file_structure") hslot
    rw [henv, hph] at hmain
    exact hmain
  · have henv : promptEnv repoName repoUrl desc a (str "code_samples") =
        codeSamplesText a := rfl
    have hph : codeSamplesText a = str "No code samples available" := by
      rcases hcs with h | h <;> simp [codeSamplesText, h]
    have hmain := renderTemplate_contains_slotVal tmpl
      (promptEnv repoName repoUrl desc a) (str "code_samples") hslot
    rw [henv, hph] at hmain
    exact hmain
  · have henv : promptEnv repoName repoUrl desc a (str "repo_description") =
        desc.getD (str "No description available") := rfl
    have hph : desc.getD (str "No description available") =
        str "No description available" := by
      rw [hdesc]
      rfl
    have hmain := renderTemplate_contains_slotVal tmpl
      (promptEnv repoName repoUrl desc a) (str "repo_description") hslot
    rw [henv, hph] at hmain
    exact hmain

/-- Witness for `prompt_placeholders_on_missing_evidence` at a three-slot
template and an analysis with empty file structure and code samples and no
repository description. -/
theorem prompt_placeholders_on_missing_evidence_witness :
    containsSub (preparePrompt [TItem.slot (str "file_structure"),
        TItem.slot (str "code_samples"), TItem.slot (str "repo_description")]
      (str "r") (str "u") none analysisNoReadme)
      (str "File structure not available") = true ∧
    containsSub (preparePrompt [TItem.slot (str "file_structure"),
        TItem.slot (str "code_samples"), TItem.slot (str "repo_description")]
      (str "r") (str "u") none analysisNoReadme)
      (str "No code samples available") = true ∧
    containsSub (preparePrompt [TItem.slot (str "file_structure"),
        TItem.slot (str "code_samples"), TItem.slot (str "repo_description")]
      (str "r") (str "u") none analysisNoReadme)
      (str "No description available") = true := by
  obtain ⟨h1, h2, h3⟩ := prompt_placeholders_on_missing_evidence
    [TItem.slot (str "file_structure"), TItem.slot (str "code_samples"),
      TItem.slot (str "repo_description")] (str "r") (str "u") none analysisNoReadme
  exact ⟨h1 (Or.inr rfl) (by simp), h2 (Or.inr rfl) (by simp), h3 rfl (by simp)⟩

/-- Claim C8 (counterexample): for a repository with no README,
`_extract_readme` returns the empty string, the analysis maps
`readme_content` to that empty string, and the assembled prompt does not
contain the claimed `README not found` placeholder — the slot is filled
with the empty string instead. -/
theorem prompt_empty_readme_no_placeholder :
    extractReadme [] = [] ∧
      preparePrompt [TItem.slot (str "readme_content")] (str "r") (str "u") none
        analysisNoReadme = [] ∧
      containsSub (preparePrompt [TItem.slot (str "readme_content")] (str "r") (str "u")
        none analysisNoReadme) (str "README not found") = false := by
  decide

theorem allKeysContained_obj {fs : List (Str × Json)} {ks : List Str}
    (h : allKeysContained (Json.obj fs) ks = .ok true) :
    ∀ k ∈ ks, jsonHasKey (Json.obj fs) k = true := by
  induction ks with
  | nil =>
    intro k hk
    simp at hk
  | cons k0 rest ih =>
    intro k hk
    rw [allKeysContained] at h
    rw [show pyContains (Json.obj fs) k0 = .ok (fs.any (fun p => p.1 == k0)) from rfl] at h
    cases hb : fs.any (fun p => p.1 == k0) with
    | false =>
      rw [hb] at h
      simp at h
    | true =>
      rw [hb] at h
      rcases List.mem_cons.mp hk with rfl | hk'
      · rw [show jsonHasKey (Json.obj fs) k = fs.any (fun p => p.1 == k) from rfl]
        exact hb
      · exact ih h k hk'

theorem jsonHasKey_lookup {fs : List (Str × Json)} {k : Str}
    (h : jsonHasKey (Json.obj fs) k = true) : ∃ v, objLookup fs k = some v := by
  rw [jsonHasKey] at h
  obtain ⟨p, hp, hpk⟩ := List.any_eq_true.mp h
  have hmem : p ∈ fs.reverse := List.mem_reverse.mpr hp
  have hsome : (fs.reverse.find? (fun q => q.1 == k)).isSome := by
    apply List.find?_isSome.mpr
    exact ⟨p, hmem, hpk⟩
  obtain ⟨q, hq⟩ := Option.isSome_iff_exists.mp hsome
  exact ⟨q.2, by rw [objLookup, hq]; rfl⟩

theorem validate_ok_true_shape {d : Json} (h : validateSkillData d = .ok true) :
    jsonHasKey d (str "skill_md") = true ∧
      jsonHasKey d (str "references") = true ∧
      jsonHasKey d (str "templates") = true ∧
      (∃ smd, jsonGetKey d (str "skill_md") = some smd ∧ jsonIsObj smd = true ∧
        jsonHasKey smd (str "frontmatter") = true ∧
        jsonHasKey smd (str "content") = true ∧
        ∃ fm, jsonGetKey smd (str "frontmatter") = some fm ∧
          pyContains fm (str "name") = .ok true ∧
          pyContains fm (str "description") = .ok true) ∧
      (∃ r, jsonGetKey d (str "references") = some r ∧ jsonIsArr r = true) ∧
      (∃ tp, jsonGetKey d (str "templates") = some tp ∧ jsonIsArr tp = true) := by
  rw [validateSkillData] at h
  cases hall : allKeysContained d requiredKeys with
  | error e => simp [hall] at h
  | ok b =>
  cases b with
  | false => simp [hall] at h
  | true =>
  cases hget : pyDictGet d (str "skill_md") (Json.obj []) with
  | error e => simp [hall, hget] at h
  | ok smd =>
  cases hobj : jsonIsObj smd with
  | false => simp [hall, hget, hobj] at h
  | true =>
  cases hkf : jsonHasKey smd (str "frontmatter") with
  | false => simp [hall, hget, hobj, hkf] at h
  | true =>
  cases hkc : jsonHasKey smd (str "content") with
  | false => simp [hall, hget, hobj, hkf, hkc] at h
  | true =>
  cases hnm : pyContains ((jsonGetKey smd (str "frontmatter")).getD (Json.obj []))
      (str "name") with
  | error e => simp [hall, hget, hobj, hkf, hkc, hnm] at h
  | ok bn =>
  cases bn with
  | false => simp [hall, hget, hobj, hkf, hkc, hnm] at h
  | true =>
  cases hds : pyContains ((jsonGetKey smd (str "frontmatter")).getD (Json.obj []))
      (str "description") with
  | error e => simp [hall, hget, hobj, hkf, hkc, hnm, hds] at h
  | ok bd =>
  cases bd with
  | false => simp [hall, hget, hobj, hkf, hkc, hnm, hds] at h
  | true =>
  cases href : pyDictGet d (str "references") Json.null with
  | error e => simp [hall, hget, hobj, hkf, hkc, hnm, hds, href] at h
  | ok refs =>
  cases hra : jsonIsArr refs with
  | false => simp [hall, hget, hobj, hkf, hkc, hnm, hds, href, hra] at h
  | true =>
  cases htp : pyDictGet d (str "templates") Json.null with
  | error e => simp [hall, hget, hobj, hkf, hkc, hnm, hds, href, hra, htp] at h
  | ok tps =>
  cases hta : jsonIsArr tps with
  | false => simp [hall, hget, hobj, hkf, hkc, hnm, hds, href, hra, htp, hta] at h
  | true =>
  obtain ⟨fs, rfl⟩ : ∃ fs, d = Json.obj fs := by
    cases d with
    | obj fs => exact ⟨fs, rfl⟩
    | null => exact absurd hget (by simp [pyDictGet])
    | boolean b => exact absurd hget (by simp [pyDictGet])
    | num n => exact absurd hget (by simp [pyDictGet])
    | strv s => exact absurd hget (by simp [pyDictGet])
    | arr es => exact absurd hget (by simp [pyDictGet])
  have hks := allKeysContained_obj hall
  have hk1 : jsonHasKey (Json.obj fs) (str "skill_md") = true :=
    hks _ (by simp [requiredKeys])
  have hk2 : jsonHasKey (Json.obj fs) (str "references") = true :=
    hks _ (by simp [requiredKeys])
  have hk3 : jsonHasKey (Json.obj fs) (str "templates") = true :=
    hks _ (by simp [requiredKeys])
  have hgetsmd : jsonGetKey (Json.obj fs) (str "skill_md") = some smd := by
    obtain ⟨v, hv⟩ := jsonHasKey_lookup hk1
    rw [pyDictGet, hv] at hget
    simp at hget
    rw [jsonGetKey, hv, hget]
  have hsmdobj : ∃ smdfs, smd = Json.obj smdfs := by
    cases smd with
    | obj s2 => exact ⟨s2, rfl⟩
    | null => exact absurd hobj (by simp [jsonIsObj])
    | boolean b => exact absurd hobj (by simp [jsonIsObj])
    | num n => exact absurd hobj (by simp [jsonIsObj])
    | strv s => exact absurd hobj (by simp [jsonIsObj])
    | arr es => exact absurd hobj (by simp [jsonIsObj])
  obtain ⟨smdfs, rfl⟩ := hsmdobj
  obtain ⟨fm, hfm⟩ := jsonHasKey_lookup hkf
  have hfmget : jsonGetKey (Json.obj smdfs) (str "frontmatter") = some fm := hfm
  rw [hfmget] at hnm hds
  simp only [Option.getD_some] at hnm hds
  have hgetr : jsonGetKey (Json.obj fs) (str "references") = some refs := by
    obtain ⟨v, hv⟩ := jsonHasKey_lookup hk2
    rw [pyDictGet, hv] at href
    simp at href
    rw [jsonGetKey, hv, href]
  have hgett : jsonGetKey (Json.obj fs) (str "templates") = some tps := by
    obtain ⟨v, hv⟩ := jsonHasKey_lookup hk3
    rw [pyDictGet, hv] at htp
    simp at htp
    rw [jsonGetKey, hv, htp]
  exact ⟨hk1, hk2, hk3,
    ⟨Json.obj smdfs, hgetsmd, hobj, hkf, hkc, fm, hfmget, hnm, hds⟩,
    ⟨refs, hgetr, hra⟩, ⟨tps, hgett, hta⟩⟩

theorem parseDecoded_ok_some {d doc : Json} (h : parseDecoded d = .ok (some doc)) :
    validateSkillData d = .ok true ∧ doc = d := by
  rw [parseDecoded] at h
  cases hv : validateSkillData d with
  | error e => rw [hv] at h; simp at h
  | ok b =>
    rw [hv] at h
    cases b with
    | false => simp at h
    | true =>
      simp at h
      exact ⟨rfl, h.symm⟩

theorem hasKey_of_pyContains_obj {fm : Json} {k : Str}
    (hobj : jsonIsObj fm = true) (h : pyContains fm k = .ok true) :
    jsonHasKey fm k = true := by
  cases fm with
  | obj ffs =>
    rw [show pyContains (Json.obj ffs) k = .ok (ffs.any (fun p => p.1 == k)) from rfl] at h
    cases hx : ffs.any (fun p => p.1 == k) with
    | true => exact hx
    | false =>
      rw [hx] at h
      exact absurd h (by simp)
  | null => simp [jsonIsObj] at hobj
  | boolean b => simp [jsonIsObj] at hobj
  | num n => simp [jsonIsObj] at hobj
  | strv s => simp [jsonIsObj] at hobj
  | arr es => simp [jsonIsObj] at hobj

/-- Claim C1 (amended): parsing returns null (never a document) whenever
the candidate is missing one of the top-level keys `skill_md`,
`references`, `templates`, or `skill_md` is not a mapping containing both
`frontmatter` and `content`, or `frontmatter` is a mapping missing `name`
or `description`, or `references`/`templates` is not a sequence. (A
non-mapping `frontmatter` is checked only with Python's membership
operator, so for instance a string containing `name` and `description` as
substrings passes — see the counterexample.) -/
theorem parse_rejects_invalid_documents (d : Json) (hcond : amendC1Cond d = true) :
    ∀ doc, parseDecoded d ≠ .ok (some doc) := by
  intro doc hcontra
  obtain ⟨hval, _⟩ := parseDecoded_ok_some hcontra
  obtain ⟨hk1, hk2, hk3, ⟨smd, hsmd, hobj, hkf, hkc, fm, hfm, hnm, hds⟩,
    ⟨r, hr, hra⟩, ⟨tp, htp', hta⟩⟩ := validate_ok_true_shape hval
  rw [amendC1Cond] at hcond
  by_cases hfo : jsonIsObj fm = true
  · have h1 := hasKey_of_pyContains_obj hfo hnm
    have h2 := hasKey_of_pyContains_obj hfo hds
    simp [hk1, hk2, hk3, hsmd, hfm, hr, htp', hobj, hkf, hkc, hra, hta, hfo, h1, h2] at hcond
  · have hfo' : jsonIsObj fm = false := by
      cases hh : jsonIsObj fm with
      | false => rfl
      | true => exact absurd hh hfo
    simp [hk1, hk2, hk3, hsmd, hfm, hr, htp', hobj, hkf, hkc, hra, hta, hfo'] at hcond

/-- Witness for `parse_rejects_invalid_documents` at the empty object. -/
theorem parse_rejects_invalid_documents_witness :
    amendC1Cond (Json.obj []) = true ∧
      parseDecoded (Json.obj []) ≠ .ok (some (Json.obj [])) :=
  ⟨by rfl, parse_rejects_invalid_documents (Json.obj []) (by rfl) (Json.obj [])⟩

/-- Claim C1 (counterexample): the document `docStrFm`, whose
`frontmatter` is the string `"namedescription"` and therefore has no
`name` or `description` field, satisfies the claim's rejection condition,
yet `_parse_response` returns the full document instead of null (Python's
`in` performs a substring test on the string frontmatter). -/
theorem parse_accepts_string_frontmatter :
    claimC1Cond docStrFm = true ∧
      parseDecoded docStrFm = .ok (some docStrFm) ∧
      parseDecoded docStrFm ≠ .ok none := by
  refine ⟨by rfl, by rfl, ?_⟩
  intro h
  rw [show parseDecoded docStrFm = .ok (some docStrFm) from rfl] at h
  simp at h

/-- Claim C2 (amended): whenever a document is returned to a caller, the
validator has enforced that `references` and `templates` are sequences
(and the `skill_md`/`frontmatter` key structure), and the document is
returned verbatim; no per-element `{filename, content}` check is
performed. -/
theorem parse_checks_only_listness (d doc : Json)
    (h : parseDecoded d = .ok (some doc)) :
    doc = d ∧
      (∃ r, jsonGetKey d (str "references") = some r ∧ jsonIsArr r = true) ∧
      (∃ tp, jsonGetKey d (str "templates") = some tp ∧ jsonIsArr tp = true) := by
  obtain ⟨hval, hdoc⟩ := parseDecoded_ok_some h
  obtain ⟨_, _, _, _, hrefs, htps⟩ := validate_ok_true_shape hval
  exact ⟨hdoc, hrefs, htps⟩

/-- Witness for `parse_checks_only_listness` at the scenario-A document. -/
theorem parse_checks_only_listness_witness :
    docA = docA ∧
      (∃ r, jsonGetKey docA (str "references") = some r ∧ jsonIsArr r = true) ∧
      (∃ tp, jsonGetKey docA (str "templates") = some tp ∧ jsonIsArr tp = true) :=
  parse_checks_only_listness docA docA (by rfl)

/-- Claim C2 (counterexample): `docBadElem` carries a `references` element
`{}` that lacks both `filename` and `content`, yet validation passes and
`_parse_response` returns the document — the element shape is never
checked. -/
theorem parse_accepts_malformed_reference_element :
    jsonGetKey docBadElem (str "references") = some (Json.arr [Json.obj []]) ∧
      elemShapeOk (Json.obj []) = false ∧
      parseDecoded docBadElem = .ok (some docBadElem) ∧
      parseDecoded docBadElem ≠ .ok none := by
  refine ⟨by rfl, by rfl, by rfl, ?_⟩
  intro h
  rw [show parseDecoded docBadElem = .ok (some docBadElem) from rfl] at h
  simp at h
